import Mathlib

/-!
Shallow embedding of the water-sort solver found in `src/api/solver`
(concatenated into `src/src/api/routes.ts` lines 80-360).

JS arrays of colors become Lean lists with the same orientation: index 0 is
the bottom of a vial and the last element is the top.  JS `Record<string,
number>` maps with default 0 become functions `Color → Nat`.  The JS `Move`
fields `from`/`to` are named `src`/`dst` here because `from` is a Lean
keyword.  Code that throws (`executeMove` on an invalid move) returns
`Option`.
-/

namespace WaterSort

/-- Colors are opaque strings, as in `src/types/index.ts`. -/
abbrev Color := String

/-- A vial is an ordered sequence of colors, bottom first, top last. -/
abbrev Vial := List Color

/-- `const MAX_VIAL_CAPACITY = 4`. -/
def MAX_VIAL_CAPACITY : Nat := 4

/-- `const MAX_SEARCH_STATES = 100000`. -/
def MAX_SEARCH_STATES : Nat := 100000

/-- A raw move; `src`/`dst` are the JS fields `from`/`to`. -/
structure Move where
  src : Nat
  dst : Nat
deriving Repr, DecidableEq

/-- A move enriched with the color poured and the units transferred. -/
structure MoveWithColor where
  src : Nat
  dst : Nat
  color : Color
  units : Nat
deriving Repr, DecidableEq

/-- The solver's `GameState` class: vials plus the path of moves taken. -/
structure GameState where
  vials : List Vial
  moves : List Move
deriving Repr, DecidableEq

/-- `GameState.toString`: vials joined by `','` within a vial and `'|'`
between vials; used as the canonical key for deduplication. -/
def GameState.key (s : GameState) : String :=
  String.intercalate "|" (s.vials.map fun vial => String.intercalate "," vial)

/-- `getTotalColorCounts`: fold over all vials counting occurrences of each
color; the JS record with default 0 is modelled as a function. -/
def getTotalColorCounts (vials : List Vial) : Color → Nat :=
  vials.foldl
    (fun counts vial =>
      vial.foldl
        (fun vialCounts color =>
          fun c => if c = color then vialCounts color + 1 else vialCounts c)
        counts)
    (fun _ => 0)

/-- The `colorToVial` map construction inside `isSolved`: walk the non-empty
vials, recording the first entry's color; `none` when a color repeats
(JS `hasUniqueColors` false). -/
def colorToVialMap : List (Nat × Vial) → List (Color × Nat) → Option (List (Color × Nat))
  | [], acc => some acc
  | (index, vial) :: rest, acc =>
    let color := vial.headD ""
    if (acc.lookup color).isSome then none
    else colorToVialMap rest (acc ++ [(color, index)])

/-- `isSolved(state, strictMode)` from the source. -/
def isSolved (state : GameState) (strictMode : Bool) : Bool :=
  let basicCheck := state.vials.all fun vial =>
    vial.length == 0 || vial.all fun color => color == vial.headD ""
  if !basicCheck then false
  else if !strictMode then true
  else
    let nonEmptyVials := state.vials.enum.filter fun p => p.2.length != 0
    match colorToVialMap nonEmptyVials [] with
    | none => false
    | some colorToVial =>
      let colorCounts := getTotalColorCounts state.vials
      colorToVial.all fun p =>
        (state.vials.getD p.2 []).length == min (colorCounts p.1) MAX_VIAL_CAPACITY

/-- `getTopColorSequence(vial)`: the top color paired with the result of the
JS `reduce` over the reversed vial, which counts every occurrence of the
top color (the reduce has no early exit). -/
def getTopColorSequence (vial : Vial) : Option (Color × Nat) :=
  if vial.length == 0 then none
  else
    let topColor := vial.getLastD ""
    let count := vial.reverse.foldl
      (fun count color => if color == topColor then count + 1 else count) 0
    some (topColor, count)

/-- `isValidMove(state, from, to)` from the source. -/
def isValidMove (state : GameState) (src dst : Nat) : Bool :=
  let sourceVial := state.vials.getD src []
  let destVial := state.vials.getD dst []
  if sourceVial.length == 0 then false
  else if src == dst then false
  else if MAX_VIAL_CAPACITY ≤ destVial.length then false
  else if destVial.length == 0 then true
  else sourceVial.getLastD "" == destVial.getLastD ""

/-- JS `arr.slice(0, -u)` for the `u` used by the solver (`u ≥ 1` whenever
the move is valid, and JS `slice(0, -0)` returns `[]`). -/
def jsDropLast (l : List Color) (u : Nat) : List Color :=
  if u = 0 then [] else l.take (l.length - u)

/-- JS `arr.slice(-u)` for `u ≥ 1`: the last `min u l.length` elements
(JS `slice(-0)` returns the whole array). -/
def jsTakeLast (l : List Color) (u : Nat) : List Color :=
  if u = 0 then l else l.drop (l.length - u)

/-- `executeMove(state, from, to)`: `none` models the JS throw on an invalid
move.  The destination update mirrors the source exactly:
`[...vial, ...vial.slice(-unitsToPour).fill(color)]`, i.e. it appends one
copy of the color for each of the last `unitsToPour` entries the
destination already has. -/
def executeMove (state : GameState) (src dst : Nat) : Option GameState :=
  if !isValidMove state src dst then none
  else
    let sourceVial := state.vials.getD src []
    match getTopColorSequence sourceVial with
    | none => some { vials := state.vials, moves := state.moves }
    | some (color, count) =>
      let destVial := state.vials.getD dst []
      let spaceInDest := MAX_VIAL_CAPACITY - destVial.length
      let unitsToPour := min count spaceInDest
      let newVials := state.vials.enum.map fun p =>
        if p.1 = src then jsDropLast p.2 unitsToPour
        else if p.1 = dst then p.2 ++ (jsTakeLast p.2 unitsToPour).map fun _ => color
        else p.2
      some { vials := newVials, moves := state.moves ++ [⟨src, dst⟩] }

/-- `generateNextStates(state)`: all `(from, to)` pairs in ascending
`from`-major order, filtered by validity, mapped through `executeMove`. -/
def generateNextStates (state : GameState) : List GameState :=
  (((List.range state.vials.length).flatMap fun src =>
      (List.range state.vials.length).map fun dst => (src, dst))
    |>.filter fun p => isValidMove state p.1 p.2)
    |>.filterMap fun p => executeMove state p.1 p.2

/-- The `.find` phase of `processState`: mark each candidate visited, push it
on the queue, and stop at the first solved state. -/
def scanChildren (strictMode : Bool) :
    List GameState → List String → List GameState →
    Option GameState × List String × List GameState
  | [], visited, queue => (none, visited, queue)
  | s :: rest, visited, queue =>
    let visited := visited ++ [s.key]
    let queue := queue ++ [s]
    if isSolved s strictMode then (some s, visited, queue)
    else scanChildren strictMode rest visited queue

/-- `processState`: generate successors, drop already-visited ones, then scan
them (marking and enqueueing) for a solved state. -/
def processState (strictMode : Bool) (state : GameState)
    (visited : List String) (queue : List GameState) :
    Option GameState × List String × List GameState :=
  let next := (generateNextStates state).filter fun s => !(visited.contains s.key)
  scanChildren strictMode next visited queue

/-- The BFS `while` loop.  The fuel argument is `MAX_SEARCH_STATES` minus the
number of states explored so far; the second component of the result counts
the dequeues performed. -/
def bfsLoop (strictMode : Bool) :
    Nat → List GameState → List String → Option GameState × Nat
  | 0, _, _ => (none, 0)
  | _ + 1, [], _ => (none, 0)
  | fuel + 1, currentState :: rest, visited =>
    match processState strictMode currentState visited rest with
    | (some solution, _, _) => (some solution, 1)
    | (none, visited2, queue2) =>
      let r := bfsLoop strictMode fuel queue2 visited2
      (r.1, r.2 + 1)

/-- `enrichMoves(moves, initialVials)`: replay the raw moves against a copy of
the initial vials, emitting color/units annotations.  Note the destination
here gains `Array(unitsToPour).fill(topColor)`, i.e. exactly `unitsToPour`
entries — unlike `executeMove`. -/
def enrichMoves (moves : List Move) (initialVials : List Vial) : List MoveWithColor :=
  (moves.foldl
    (fun (acc : List MoveWithColor × List Vial) m =>
      let vials := acc.2
      let sourceVial := vials.getD m.src []
      if sourceVial.length == 0 then acc
      else
        let topColor := sourceVial.getLastD ""
        let count := sourceVial.reverse.foldl
          (fun count color => if color == topColor then count + 1 else count) 0
        let destVial := vials.getD m.dst []
        let spaceInDest := MAX_VIAL_CAPACITY - destVial.length
        let unitsToPour := min count spaceInDest
        let newVials := vials.enum.map fun p =>
          if p.1 = m.src then jsDropLast p.2 unitsToPour
          else if p.1 = m.dst then p.2 ++ List.replicate unitsToPour topColor
          else p.2
        (acc.1 ++ [⟨m.src, m.dst, topColor, unitsToPour⟩], newVials))
    ([], initialVials)).1

/-- `solvePuzzle(initialVials, strictMode)` from the source. -/
def solvePuzzle (initialVials : List Vial) (strictMode : Bool) :
    Option (List MoveWithColor) :=
  let initialState : GameState := ⟨initialVials, []⟩
  if isSolved initialState strictMode then some []
  else
    match (bfsLoop strictMode MAX_SEARCH_STATES [initialState] [initialState.key]).1 with
    | some solution => some (enrichMoves solution.moves initialVials)
    | none => none

/-- Spec-side statement of the strict goal condition (claim C7), written from
the spec's words: every vial is empty or monochrome; every color that appears
anywhere occupies exactly one vial; and that vial's length equals
`min(totalCountOfColor, MAX_VIAL_CAPACITY)`. -/
def strictSolvedSpec (vials : List Vial) : Prop :=
  (∀ v ∈ vials, ∀ x ∈ v, ∀ y ∈ v, x = y) ∧
  ∀ c : Color, c ∈ vials.flatten →
    (vials.filter fun v => v.contains c).length = 1 ∧
    ∀ v ∈ vials, c ∈ v → v.length = min ((vials.flatten).count c) MAX_VIAL_CAPACITY

/-- Replay a raw move sequence with `executeMove`; `none` as soon as a move is
invalid. -/
def runMoves : GameState → List Move → Option GameState
  | s, [] => some s
  | s, m :: rest =>
    match executeMove s m.src m.dst with
    | none => none
    | some s2 => runMoves s2 rest

/-- Modelled from the spec (§8, annotator consistency): replaying an
`AnnotatedMove` sequence transfers, for each move, exactly `units` entries of
its `color` from vial `src` to vial `dst`. -/
def replayAnnotated (vials : List Vial) : List MoveWithColor → List Vial
  | [] => vials
  | am :: rest =>
    replayAnnotated
      (vials.enum.map fun p =>
        if p.1 = am.src then p.2.take (p.2.length - am.units)
        else if p.1 = am.dst then p.2 ++ List.replicate am.units am.color
        else p.2)
      rest

end WaterSort

namespace WaterSort

/-- C3.  The claim says `getTopColorSequence` returns the length of the
contiguous top run (count 1 when the entry below the top differs).  The code
instead counts every occurrence of the top color: on the vial
`["red","blue","red"]` (top is the last entry, `"red"`, and the entry below
differs) it returns count 2, not 1. -/
theorem getTopColorSequence_counts_all_occurrences :
    getTopColorSequence ["red", "blue", "red"] = some ("red", 2) ∧ (2 : Nat) ≠ 1 := by
  decide

/-- C1.  The claim says `executeMove` appends exactly
`units = min(runCount, 4 - length dest)` entries of the poured color to the
destination.  On the valid move `(0, 1)` from `[["red"], []]` we have
`units = 1`, yet the destination stays empty: the code appends
`min(units, length dest) = 0` entries, so the state after the move is
`[[], []]` rather than the `[[], ["red"]]` the claim requires. -/
theorem executeMove_drops_poured_units :
    isValidMove ⟨[["red"], []], []⟩ 0 1 = true ∧
    (executeMove ⟨[["red"], []], []⟩ 0 1).map GameState.vials = some [[], []] ∧
    ([[], []] : List Vial) ≠ [[], ["red"]] := by
  decide

/-- C2.  The claim says the color multiset is conserved along every valid
move.  After the valid move `(0, 1)` from `[["red"], []]` the total count of
`"red"` drops from 1 to 0: the poured unit is destroyed. -/
theorem executeMove_breaks_color_conservation :
    isValidMove ⟨[["red"], []], []⟩ 0 1 = true ∧
    getTotalColorCounts [["red"], []] "red" = 1 ∧
    (executeMove ⟨[["red"], []], []⟩ 0 1).map
      (fun s => getTotalColorCounts s.vials "red") = some 0 := by
  decide

/-- C5.  The claim says replaying the annotated sequence against the initial
vials reproduces the final configuration of the raw move sequence under
`executeMove`.  On `[["red","blue"], [], []]` in loose mode the search returns
the raw sequence `[(0,1)]`, annotated as pouring 1 `"blue"` unit; replaying
the annotation yields `[["red"], ["blue"], []]`, while `executeMove` (whose
pour into an empty vial appends nothing) yields `[["red"], [], []]`. -/
theorem annotator_replay_diverges :
    solvePuzzle [["red", "blue"], [], []] false = some [⟨0, 1, "blue", 1⟩] ∧
    (bfsLoop false MAX_SEARCH_STATES [⟨[["red", "blue"], [], []], []⟩]
        [GameState.key ⟨[["red", "blue"], [], []], []⟩]).1.map GameState.moves =
      some [⟨0, 1⟩] ∧
    (runMoves ⟨[["red", "blue"], [], []], []⟩ [⟨0, 1⟩]).map GameState.vials =
      some [["red"], [], []] ∧
    replayAnnotated [["red", "blue"], [], []] [⟨0, 1, "blue", 1⟩] =
      [["red"], ["blue"], []] ∧
    ([["red"], [], []] : List Vial) ≠ [["red"], ["blue"], []] := by
  decide

/-! Helper lemmas about the embedded operations. -/

lemma foldl_count_eq (c : Color) :
    ∀ (l : List Color) (k : Nat),
      l.foldl (fun count color => if color == c then count + 1 else count) k =
        k + l.count c
  | [], k => by simp
  | x :: xs, k => by
    rw [List.foldl_cons, foldl_count_eq c xs, List.count_cons]
    cases h : x == c
    · simp only [h, Bool.false_eq_true, if_false]
      omega
    · simp only [h, if_true]
      omega

lemma getLastD_mem (v : Vial) (hv : v ≠ []) : v.getLastD "" ∈ v := by
  rw [List.getLastD_eq_getLast? "" v, List.getLast?_eq_getLast_of_ne_nil hv]
  exact List.getLast_mem hv

lemma getTopColorSequence_eq (v : Vial) (hv : v ≠ []) :
    getTopColorSequence v = some (v.getLastD "", v.count (v.getLastD "")) := by
  have hlen : (v.length == 0) = false := by
    simp [List.length_eq_zero, hv]
  unfold getTopColorSequence
  rw [hlen]
  simp only [Bool.false_eq_true, if_false]
  rw [foldl_count_eq, List.count_reverse, Nat.zero_add]

lemma getTopColorSequence_count_pos (v : Vial) (hv : v ≠ []) :
    0 < v.count (v.getLastD "") :=
  List.count_pos_iff.2 (getLastD_mem v hv)

/-- Unfolding of the validity predicate into its logical content. -/
lemma isValidMove_eq_true_iff (s : GameState) (f t : Nat) :
    isValidMove s f t = true ↔
      s.vials.getD f [] ≠ [] ∧ f ≠ t ∧
        (s.vials.getD t []).length < MAX_VIAL_CAPACITY ∧
        (s.vials.getD t [] = [] ∨
          (s.vials.getD f []).getLastD "" = (s.vials.getD t []).getLastD "") := by
  unfold isValidMove
  dsimp only
  split_ifs with h1 h2 h3 h4
  · rw [beq_iff_eq, List.length_eq_zero] at h1
    exact ⟨fun hf => hf.elim, fun hr => (hr.1 h1).elim⟩
  · rw [beq_iff_eq] at h2
    exact ⟨fun hf => hf.elim, fun hr => (hr.2.1 h2).elim⟩
  · exact ⟨fun hf => hf.elim,
      fun hr => absurd hr.2.2.1 (Nat.not_lt.2 h3)⟩
  · rw [beq_iff_eq, List.length_eq_zero] at h1
    rw [beq_iff_eq, List.length_eq_zero] at h4
    refine ⟨fun _ => ⟨h1, ?_, Nat.not_le.1 h3, Or.inl h4⟩, fun _ => by trivial⟩
    intro hc
    exact h2 (by rw [hc, beq_iff_eq])
  · rw [beq_iff_eq, List.length_eq_zero] at h1
    rw [beq_iff_eq, List.length_eq_zero] at h4
    rw [beq_iff_eq]
    constructor
    · intro hb
      refine ⟨h1, ?_, Nat.not_le.1 h3, Or.inr hb⟩
      intro hc
      exact h2 (by rw [hc, beq_iff_eq])
    · intro hr
      rcases hr.2.2.2 with hd | hd
      · exact (h4 hd).elim
      · exact hd

lemma getD_lt_of_ne_nil (l : List Vial) (i : Nat) (h : l.getD i [] ≠ []) :
    i < l.length := by
  by_contra hge
  exact h (List.getD_eq_default l [] (Nat.not_lt.1 hge))

lemma getD_enum_map (l : List Vial) (g : Nat × Vial → Vial) (i : Nat)
    (hi : i < l.length) :
    (l.enum.map g).getD i [] = g (i, l.getD i []) := by
  rw [List.getD_eq_getElem?_getD, List.getElem?_map, List.getElem?_enum,
    List.getD_eq_getElem?_getD, List.getElem?_eq_getElem hi]
  rfl

lemma getD_enum_map_default (l : List Vial) (g : Nat × Vial → Vial) (i : Nat)
    (hi : l.length ≤ i) :
    (l.enum.map g).getD i [] = [] := by
  refine List.getD_eq_default _ _ ?_
  simpa using hi

lemma jsDropLast_length (l : List Color) (u : Nat) (hu : 1 ≤ u) :
    (jsDropLast l u).length = l.length - u := by
  unfold jsDropLast
  rw [if_neg (by omega)]
  simp [List.length_take]

lemma jsTakeLast_length (l : List Color) (u : Nat) (hu : 1 ≤ u) :
    (jsTakeLast l u).length = min u l.length := by
  unfold jsTakeLast
  rw [if_neg (by omega)]
  rw [List.length_drop]
  omega

/-- What `executeMove` computes on a valid move, with the pour quantities
made explicit. -/
lemma executeMove_eq_some (s : GameState) (f t : Nat)
    (h : isValidMove s f t = true) :
    ∃ c n,
      getTopColorSequence (s.vials.getD f []) = some (c, n) ∧ 1 ≤ n ∧
      executeMove s f t = some
        { vials := s.vials.enum.map fun p =>
            if p.1 = f then
              jsDropLast p.2 (min n (MAX_VIAL_CAPACITY - (s.vials.getD t []).length))
            else if p.1 = t then
              p.2 ++ (jsTakeLast p.2
                (min n (MAX_VIAL_CAPACITY - (s.vials.getD t []).length))).map
                  fun _ => c
            else p.2,
          moves := s.moves ++ [⟨f, t⟩] } := by
  obtain ⟨hsv, -, -, -⟩ := (isValidMove_eq_true_iff s f t).1 h
  refine ⟨(s.vials.getD f []).getLastD "",
    (s.vials.getD f []).count ((s.vials.getD f []).getLastD ""),
    getTopColorSequence_eq _ hsv, getTopColorSequence_count_pos _ hsv, ?_⟩
  unfold executeMove
  rw [h]
  simp only [Bool.not_true, Bool.false_eq_true, if_false]
  rw [getTopColorSequence_eq _ hsv]

end WaterSort

namespace WaterSort

/-- C8.  Characterization of `isValidMove` for in-range indices: false when
`from = to`, false when the source vial is empty, false when the destination
already holds `MAX_VIAL_CAPACITY` entries, true when the destination is
empty, and otherwise true iff the two top colors agree. -/
theorem isValidMove_characterization (s : GameState) (f t : Nat)
    (_hf : f < s.vials.length) (_ht : t < s.vials.length) :
    isValidMove s f t = true ↔
      f ≠ t ∧ s.vials.getD f [] ≠ [] ∧
        (s.vials.getD t []).length < MAX_VIAL_CAPACITY ∧
        (s.vials.getD t [] = [] ∨
          (s.vials.getD f []).getLastD "" = (s.vials.getD t []).getLastD "") := by
  rw [isValidMove_eq_true_iff]
  tauto

/-- Witness for C8 at a concrete configuration. -/
theorem isValidMove_characterization_witness :
    isValidMove ⟨[["red"], []], []⟩ 0 1 = true :=
  (isValidMove_characterization ⟨[["red"], []], []⟩ 0 1 (by decide) (by decide)).mpr
    (by decide)

/-- C6.  On a valid move, with `(c, n) = getTopColorSequence source` and
`unitsToPour = min n (4 - length dest)`, `executeMove` removes `unitsToPour`
entries from the source but appends only `min unitsToPour (length dest)`
entries to the destination; in particular an empty destination stays empty. -/
theorem executeMove_appends_min_units_destLen (s : GameState) (f t : Nat)
    (h : isValidMove s f t = true) :
    ∃ st c n, executeMove s f t = some st ∧
      getTopColorSequence (s.vials.getD f []) = some (c, n) ∧
      (st.vials.getD t []).length =
        (s.vials.getD t []).length +
          min (min n (MAX_VIAL_CAPACITY - (s.vials.getD t []).length))
            (s.vials.getD t []).length ∧
      (st.vials.getD f []).length =
        (s.vials.getD f []).length -
          min n (MAX_VIAL_CAPACITY - (s.vials.getD t []).length) ∧
      (s.vials.getD t [] = [] → st.vials.getD t [] = []) := by
  obtain ⟨c, n, hseq, hn, hex⟩ := executeMove_eq_some s f t h
  obtain ⟨hsv, hft, hlt, -⟩ := (isValidMove_eq_true_iff s f t).1 h
  have hu1 : 1 ≤ min n (MAX_VIAL_CAPACITY - (s.vials.getD t []).length) := by
    have h4 : (s.vials.getD t []).length < MAX_VIAL_CAPACITY := hlt
    omega
  have hf_lt : f < s.vials.length := getD_lt_of_ne_nil _ _ hsv
  refine ⟨_, c, n, hex, hseq, ?_, ?_, ?_⟩
  · by_cases ht : t < s.vials.length
    · rw [getD_enum_map _ _ t ht]
      rw [if_neg (Ne.symm hft), if_pos rfl]
      rw [List.length_append, List.length_map, jsTakeLast_length _ _ hu1]
    · rw [getD_enum_map_default _ _ t (Nat.not_lt.1 ht),
        List.getD_eq_default _ _ (Nat.not_lt.1 ht)]
      simp
  · rw [getD_enum_map _ _ f hf_lt]
    rw [if_pos rfl]
    exact jsDropLast_length _ _ hu1
  · intro hdv
    by_cases ht : t < s.vials.length
    · rw [getD_enum_map _ _ t ht]
      rw [if_neg (Ne.symm hft), if_pos rfl, hdv]
      simp [jsTakeLast]
    · exact getD_enum_map_default _ _ t (Nat.not_lt.1 ht)

/-- Witness for C6 at a concrete configuration. -/
theorem executeMove_appends_min_units_destLen_witness :
    isValidMove ⟨[["red"], []], []⟩ 0 1 = true ∧
    ∃ st c n, executeMove ⟨[["red"], []], []⟩ 0 1 = some st ∧
      getTopColorSequence ((⟨[["red"], []], []⟩ : GameState).vials.getD 0 []) =
        some (c, n) ∧
      (st.vials.getD 1 []).length =
        ((⟨[["red"], []], []⟩ : GameState).vials.getD 1 []).length +
          min (min n (MAX_VIAL_CAPACITY -
              ((⟨[["red"], []], []⟩ : GameState).vials.getD 1 []).length))
            ((⟨[["red"], []], []⟩ : GameState).vials.getD 1 []).length ∧
      (st.vials.getD 0 []).length =
        ((⟨[["red"], []], []⟩ : GameState).vials.getD 0 []).length -
          min n (MAX_VIAL_CAPACITY -
            ((⟨[["red"], []], []⟩ : GameState).vials.getD 1 []).length) ∧
      ((⟨[["red"], []], []⟩ : GameState).vials.getD 1 [] = [] →
        st.vials.getD 1 [] = []) :=
  ⟨by decide, executeMove_appends_min_units_destLen ⟨[["red"], []], []⟩ 0 1 (by decide)⟩

end WaterSort

namespace WaterSort

lemma scanChildren_some_solved (m : Bool) :
    ∀ (l : List GameState) (v : List String) (q : List GameState) (s : GameState),
      (scanChildren m l v q).1 = some s → isSolved s m = true
  | [], v, q, s => by simp [scanChildren]
  | x :: rest, v, q, s => by
    rw [scanChildren]
    by_cases hsol : isSolved x m = true
    · rw [if_pos hsol]
      intro h
      cases h
      exact hsol
    · rw [if_neg hsol]
      exact scanChildren_some_solved m rest _ _ s

lemma processState_some_solved (m : Bool) (st : GameState) (v : List String)
    (q : List GameState) (s : GameState)
    (h : (processState m st v q).1 = some s) : isSolved s m = true :=
  scanChildren_some_solved m _ _ _ s h

lemma bfsLoop_some_solved (m : Bool) :
    ∀ (fuel : Nat) (q : List GameState) (v : List String) (s : GameState),
      (bfsLoop m fuel q v).1 = some s → isSolved s m = true
  | 0, _, _, s => by simp [bfsLoop]
  | _ + 1, [], _, s => by simp [bfsLoop]
  | fuel + 1, x :: rest, v, s => by
    rw [bfsLoop]
    cases hp : processState m x v rest with
    | mk fst rest2 =>
      cases fst with
      | some sol =>
        intro h
        cases h
        exact processState_some_solved m x v rest s (by rw [hp])
      | none =>
        exact bfsLoop_some_solved m fuel _ _ s

lemma bfsLoop_count_le (m : Bool) :
    ∀ (fuel : Nat) (q : List GameState) (v : List String),
      (bfsLoop m fuel q v).2 ≤ fuel
  | 0, _, _ => by simp [bfsLoop]
  | _ + 1, [], _ => by simp [bfsLoop]
  | fuel + 1, x :: rest, v => by
    rw [bfsLoop]
    cases hp : processState m x v rest with
    | mk fst rest2 =>
      cases fst with
      | some sol => exact Nat.succ_le_succ (Nat.zero_le fuel)
      | none =>
        dsimp only
        exact Nat.succ_le_succ (bfsLoop_count_le m fuel _ _)

/-- C10.  The search loop performs at most `MAX_SEARCH_STATES` dequeues; when
the loop ends (frontier exhausted or budget reached) without having found a
solved state, `solvePuzzle` returns `none`; and a non-`none` loop result only
arises from a state that `isSolved` accepts. -/
theorem solvePuzzle_bounded_search (initialVials : List Vial) (strictMode : Bool) :
    (bfsLoop strictMode MAX_SEARCH_STATES [⟨initialVials, []⟩]
        [GameState.key ⟨initialVials, []⟩]).2 ≤ MAX_SEARCH_STATES ∧
    ((bfsLoop strictMode MAX_SEARCH_STATES [⟨initialVials, []⟩]
        [GameState.key ⟨initialVials, []⟩]).1 = none →
      isSolved ⟨initialVials, []⟩ strictMode = false →
      solvePuzzle initialVials strictMode = none) ∧
    (∀ s, (bfsLoop strictMode MAX_SEARCH_STATES [⟨initialVials, []⟩]
        [GameState.key ⟨initialVials, []⟩]).1 = some s →
      isSolved s strictMode = true) := by
  refine ⟨bfsLoop_count_le _ _ _ _, ?_, ?_⟩
  · intro hn hns
    unfold solvePuzzle
    dsimp only
    rw [hns]
    simp only [Bool.false_eq_true, if_false]
    rw [hn]
  · intro s hs
    exact bfsLoop_some_solved _ _ _ _ s hs

/-- Witness for C10: a one-vial puzzle has no moves, the frontier empties and
the solver reports no solution. -/
theorem solvePuzzle_bounded_search_witness :
    solvePuzzle [["red", "blue"]] true = none :=
  (solvePuzzle_bounded_search [["red", "blue"]] true).2.1 (by decide) (by decide)

end WaterSort

namespace WaterSort

lemma foldl_update_count (v : List Color) :
    ∀ (f : Color → Nat) (c : Color),
      (v.foldl
        (fun vialCounts color =>
          fun c2 => if c2 = color then vialCounts color + 1 else vialCounts c2)
        f) c = f c + v.count c := by
  induction v with
  | nil => intro f c; simp
  | cons x xs ih =>
    intro f c
    rw [List.foldl_cons, ih, List.count_cons]
    by_cases h : c = x
    · subst h
      simp
      omega
    · have hx : (x == c) = false := by
        simp [beq_iff_eq]
        exact fun hc => h hc.symm
      simp [h, hx]

lemma getTotalColorCounts_eq (vials : List Vial) (c : Color) :
    getTotalColorCounts vials c = (vials.flatten).count c := by
  suffices h : ∀ (f : Color → Nat),
      (vials.foldl
        (fun counts vial =>
          vial.foldl
            (fun vialCounts color =>
              fun c2 => if c2 = color then vialCounts color + 1 else vialCounts c2)
            counts)
        f) c = f c + (vials.flatten).count c by
    have := h fun _ => 0
    simpa [getTotalColorCounts] using this
  induction vials with
  | nil => intro f; simp
  | cons v rest ih =>
    intro f
    rw [List.foldl_cons, ih, foldl_update_count]
    simp [List.count_append]
    omega

end WaterSort

namespace WaterSort

lemma headD_mem (v : Vial) (hv : v ≠ []) : v.headD "" ∈ v := by
  cases v with
  | nil => exact absurd rfl hv
  | cons h t => simp

lemma lookup_isSome_iff (acc : List (Color × Nat)) (c : Color) :
    (acc.lookup c).isSome = true ↔ c ∈ acc.map Prod.fst := by
  induction acc with
  | nil => simp [List.lookup]
  | cons a rest ih =>
    obtain ⟨a1, a2⟩ := a
    by_cases h : c = a1
    · subst h
      simp [List.lookup]
    · have hb : (c == a1) = false := by simp [beq_iff_eq, h]
      simp [List.lookup, hb, ih, h]

lemma colorToVialMap_eq_some_val :
    ∀ (l : List (Nat × Vial)) (acc res : List (Color × Nat)),
      colorToVialMap l acc = some res →
      res = acc ++ l.map fun p => (p.2.headD "", p.1)
  | [], acc, res => by
    intro h
    cases h
    simp
  | (i, v) :: rest, acc, res => by
    rw [colorToVialMap]
    split
    · intro h
      cases h
    · intro h
      have := colorToVialMap_eq_some_val rest (acc ++ [(v.headD "", i)]) res h
      rw [this]
      simp

lemma colorToVialMap_isSome_iff :
    ∀ (l : List (Nat × Vial)) (acc : List (Color × Nat)),
      (colorToVialMap l acc).isSome = true ↔
        ((l.map fun p => p.2.headD "").Nodup ∧
          ∀ p ∈ l, p.2.headD "" ∉ acc.map Prod.fst)
  | [], acc => by simp [colorToVialMap]
  | (i, v) :: rest, acc => by
    rw [colorToVialMap]
    by_cases hl : (acc.lookup (v.headD "")).isSome = true
    · rw [if_pos hl]
      rw [lookup_isSome_iff] at hl
      simp only [Option.isSome_none, Bool.false_eq_true, false_iff]
      intro hcon
      exact (hcon.2 (i, v) (List.mem_cons_self _ _)) hl
    · rw [if_neg hl]
      rw [colorToVialMap_isSome_iff rest (acc ++ [(v.headD "", i)])]
      have hl2 : v.headD "" ∉ acc.map Prod.fst := by
        rw [← lookup_isSome_iff]
        simpa using hl
      have hmapp : (acc ++ [(v.headD "", i)]).map Prod.fst =
          acc.map Prod.fst ++ [v.headD ""] := by simp
      rw [hmapp, List.map_cons]
      constructor
      · rintro ⟨hn, hall⟩
        have hnotin : v.headD "" ∉ rest.map fun p => p.2.headD "" := by
          intro hmem
          obtain ⟨p, hp, hpe⟩ := List.mem_map.1 hmem
          exact (hall p hp)
            (List.mem_append.2 (Or.inr (by rw [hpe]; exact List.mem_singleton.2 rfl)))
        refine ⟨List.nodup_cons.2 ⟨hnotin, hn⟩, ?_⟩
        intro p hp
        rcases List.mem_cons.1 hp with hp1 | hp1
        · rw [hp1]
          exact hl2
        · intro hmem
          exact (hall p hp1) (List.mem_append.2 (Or.inl hmem))
      · rintro ⟨hn, hall⟩
        obtain ⟨hnotin, hn2⟩ := List.nodup_cons.1 hn
        refine ⟨hn2, ?_⟩
        intro p hp hmem
        rcases List.mem_append.1 hmem with hm1 | hm1
        · exact (hall p (List.mem_cons.2 (Or.inr hp))) hm1
        · rw [List.mem_singleton] at hm1
          exact hnotin (List.mem_map.2 ⟨p, hp, hm1⟩)

end WaterSort

namespace WaterSort

lemma basicVial_iff (v : Vial) :
    (v.length == 0 || v.all fun color => color == v.headD "") = true ↔
      ∀ x ∈ v, ∀ y ∈ v, x = y := by
  cases v with
  | nil => simp
  | cons h t =>
    simp only [List.length_cons, List.headD_cons, Bool.or_eq_true, beq_iff_eq,
      List.all_eq_true, Nat.succ_ne_zero, false_or]
    constructor
    · intro ha x hx y hy
      rw [ha x hx, ha y hy]
    · intro ha x hx
      exact ha x hx h (List.mem_cons_self h t)

lemma basicCheck_iff (vials : List Vial) :
    (vials.all fun vial =>
        vial.length == 0 || vial.all fun color => color == vial.headD "") = true ↔
      ∀ v ∈ vials, ∀ x ∈ v, ∀ y ∈ v, x = y := by
  rw [List.all_eq_true]
  exact ⟨fun h v hv => (basicVial_iff v).1 (h v hv),
    fun h v hv => (basicVial_iff v).2 (h v hv)⟩

lemma filter_contains_length_eq (c : Color) :
    ∀ (n : Nat) (vials : List Vial),
      (∀ v ∈ vials, ∀ x ∈ v, ∀ y ∈ v, x = y) →
      (vials.filter fun v => v.contains c).length =
        (((vials.enumFrom n).filter fun p => p.2.length != 0).map
          fun p => p.2.headD "").count c
  | n, [], _ => by simp
  | n, v :: rest, hm => by
    have hrest := filter_contains_length_eq c (n + 1) rest
      fun w hw => hm w (List.mem_cons_of_mem _ hw)
    have hv := hm v (List.mem_cons_self v rest)
    rw [List.enumFrom_cons]
    cases v with
    | nil => simpa using hrest
    | cons h t =>
      have e2 : List.filter (fun p => p.2.length != 0)
            ((n, h :: t) :: List.enumFrom (n + 1) rest) =
          (n, h :: t) :: List.filter (fun p => p.2.length != 0)
            (List.enumFrom (n + 1) rest) :=
        List.filter_cons_of_pos (by simp)
      by_cases hcv : c ∈ (h :: t)
      · have hhead : (h :: t).headD "" = c := hv _ (by simp) _ hcv
        have hcont : ((h :: t).contains c) = true := List.elem_iff.2 hcv
        have e1 : List.filter (fun v => v.contains c) ((h :: t) :: rest) =
            (h :: t) :: List.filter (fun v => v.contains c) rest :=
          List.filter_cons_of_pos hcont
        rw [e1, e2, List.map_cons, List.length_cons, hrest, List.count_cons, hhead]
        simp
      · have hhead : ((h :: t).headD "") ≠ c := by
          intro he
          exact hcv (he ▸ headD_mem _ (by simp))
        have hcont : ¬((h :: t).contains c = true) := by
          intro hc
          exact hcv (List.elem_iff.1 hc)
        have e1 : List.filter (fun v => v.contains c) ((h :: t) :: rest) =
            List.filter (fun v => v.contains c) rest :=
          List.filter_cons_of_neg (by simpa using hcont)
        rw [e1, e2, List.map_cons, hrest, List.count_cons]
        have : ((h :: t).headD "" == c) = false := by
          simpa [beq_iff_eq] using hhead
        rw [this]
        simp

end WaterSort

namespace WaterSort

lemma getD_of_getElem? (l : List Vial) (i : Nat) (v : Vial)
    (h : l[i]? = some v) : l.getD i [] = v := by
  rw [List.getD_eq_getElem?_getD, h]
  rfl

lemma mem_enum_filter_of_mem (vials : List Vial) (v : Vial) (hv : v ∈ vials)
    (hne : v ≠ []) :
    ∃ i, (i, v) ∈ (vials.enum.filter fun p => p.2.length != 0) ∧
      vials[i]? = some v := by
  obtain ⟨i, hi, hie⟩ := List.mem_iff_getElem.1 hv
  refine ⟨i, List.mem_filter.2 ⟨?_, ?_⟩, ?_⟩
  · rw [List.mk_mem_enum_iff_getElem?, List.getElem?_eq_getElem hi, hie]
  · simpa [List.length_eq_zero] using hne
  · rw [List.getElem?_eq_getElem hi, hie]

/-- C7.  `isSolved` in strict mode accepts exactly the configurations in
which every vial is empty or monochrome, every color that appears occupies
exactly one vial, and that vial holds `min(totalCount, MAX_VIAL_CAPACITY)`
entries. -/
theorem isSolved_strict_iff_spec (s : GameState) :
    isSolved s true = true ↔ strictSolvedSpec s.vials := by
  unfold isSolved strictSolvedSpec
  dsimp only
  by_cases hb : (s.vials.all fun vial =>
      vial.length == 0 || vial.all fun color => color == vial.headD "") = true
  · have hmono := (basicCheck_iff s.vials).1 hb
    rw [hb]
    simp only [Bool.not_true, Bool.false_eq_true, if_false]
    cases hcv : colorToVialMap (s.vials.enum.filter fun p => p.2.length != 0) [] with
    | none =>
      dsimp only
      simp only [Bool.false_eq_true, false_iff]
      rintro ⟨-, hc⟩
      have hsome : (colorToVialMap
          (s.vials.enum.filter fun p => p.2.length != 0) []).isSome = true := by
        refine (colorToVialMap_isSome_iff _ _).2 ⟨?_, by simp⟩
        rw [List.nodup_iff_count_le_one]
        intro c
        by_cases hcin :
            c ∈ ((s.vials.enum.filter fun p => p.2.length != 0).map
              fun p => p.2.headD "")
        · obtain ⟨p, hpf, hpe⟩ := List.mem_map.1 hcin
          obtain ⟨hpenum, hplen⟩ := List.mem_filter.1 hpf
          have hvmem : p.2 ∈ s.vials := by
            have h1 := List.mk_mem_enum_iff_getElem?.1 (by
              have : ((p.1 : Nat), p.2) ∈ s.vials.enum := by
                simpa using hpenum
              exact this)
            obtain ⟨hlt, hie⟩ := List.getElem?_eq_some.1 h1
            exact List.mem_iff_getElem.2 ⟨p.1, hlt, hie⟩
          have hpne : p.2 ≠ [] := by
            intro h0
            rw [h0] at hplen
            simp at hplen
          have hcflat : c ∈ s.vials.flatten :=
            List.mem_flatten.2 ⟨p.2, hvmem, hpe ▸ headD_mem p.2 hpne⟩
          have h1 := (hc c hcflat).1
          rw [filter_contains_length_eq c 0 s.vials hmono] at h1
          rw [← List.enum_eq_enumFrom] at h1
          omega
        · rw [List.count_eq_zero.2 hcin]
          omega
      rw [hcv] at hsome
      simp at hsome
    | some res =>
      dsimp only
      have hres := colorToVialMap_eq_some_val _ _ _ hcv
      rw [List.nil_append] at hres
      constructor
      · intro hall
        refine ⟨hmono, ?_⟩
        intro c hcflat
        have hpart2 : ∀ v ∈ s.vials, c ∈ v →
            v.length = min ((s.vials.flatten).count c) MAX_VIAL_CAPACITY := by
          intro v hv hcvv
          have hne : v ≠ [] := by
            intro h0
            rw [h0] at hcvv
            simp at hcvv
          obtain ⟨i, hfil, hvi⟩ := mem_enum_filter_of_mem s.vials v hv hne
          have hmem_res : (v.headD "", i) ∈ res := by
            rw [hres]
            exact List.mem_map.2 ⟨(i, v), hfil, rfl⟩
          have hvhead : v.headD "" = c := hmono v hv _ (headD_mem v hne) _ hcvv
          have hchk := (List.all_eq_true.1 hall) (v.headD "", i) hmem_res
          rw [beq_iff_eq] at hchk
          rw [getD_of_getElem? _ _ _ hvi, hvhead, getTotalColorCounts_eq] at hchk
          exact hchk
        refine ⟨?_, hpart2⟩
        rw [filter_contains_length_eq c 0 s.vials hmono, ← List.enum_eq_enumFrom]
        have hsome : (colorToVialMap
            (s.vials.enum.filter fun p => p.2.length != 0) []).isSome = true := by
          rw [hcv]
          rfl
        have hnodup := ((colorToVialMap_isSome_iff _ _).1 hsome).1
        rw [List.nodup_iff_count_le_one] at hnodup
        obtain ⟨v, hv, hcvv⟩ := List.mem_flatten.1 hcflat
        have hne : v ≠ [] := by
          intro h0
          rw [h0] at hcvv
          simp at hcvv
        obtain ⟨i, hfil, hvi⟩ := mem_enum_filter_of_mem s.vials v hv hne
        have hvhead : v.headD "" = c := hmono v hv _ (headD_mem v hne) _ hcvv
        have hmemheads :
            c ∈ ((s.vials.enum.filter fun p => p.2.length != 0).map
              fun p => p.2.headD "") :=
          List.mem_map.2 ⟨(i, v), hfil, hvhead⟩
        have hge := List.count_pos_iff.2 hmemheads
        have hle := hnodup c
        omega
      · rintro ⟨-, hc2⟩
        rw [List.all_eq_true]
        intro p hp
        rw [hres] at hp
        obtain ⟨⟨i, v⟩, hfil, rfl⟩ := List.mem_map.1 hp
        obtain ⟨henum, hlen⟩ := List.mem_filter.1 hfil
        have hvi : s.vials[i]? = some v := List.mk_mem_enum_iff_getElem?.1 henum
        have hv_mem : v ∈ s.vials := by
          obtain ⟨hlt, hie⟩ := List.getElem?_eq_some.1 hvi
          exact List.mem_iff_getElem.2 ⟨i, hlt, hie⟩
        have hne : v ≠ [] := by
          intro h0
          rw [h0] at hlen
          simp at hlen
        have hcflat : v.headD "" ∈ s.vials.flatten :=
          List.mem_flatten.2 ⟨v, hv_mem, headD_mem v hne⟩
        have hlenv := (hc2 _ hcflat).2 v hv_mem (headD_mem v hne)
        rw [beq_iff_eq, getD_of_getElem? _ _ _ hvi, getTotalColorCounts_eq]
        exact hlenv
  · have hba : (s.vials.all fun vial =>
        vial.length == 0 || vial.all fun color => color == vial.headD "") = false :=
      Bool.eq_false_iff.2 hb
    rw [hba]
    simp only [Bool.not_false, if_true, Bool.false_eq_true, false_iff]
    rintro ⟨hm, -⟩
    exact hb ((basicCheck_iff s.vials).2 hm)

/-- Witness for C7: the separating configuration from the spec (color split
across two vials) evaluated concretely on the other side of the iff. -/
theorem isSolved_strict_iff_spec_witness :
    strictSolvedSpec [["red", "red"], []] :=
  (isSolved_strict_iff_spec ⟨[["red", "red"], []], []⟩).1 (by decide)

end WaterSort

namespace WaterSort

/-- C9.  The claim says `enrichMoves` emits exactly one `AnnotatedMove` per
raw `Move` of a solver result, in order, with the same `(from, to)`.  On
`[["a1","a2","a2"], ["b1","b2","b2"], ["f1","f2","f3"], []]` in loose mode
the search returns the four raw moves `(0,3), (1,3), (2,3), (2,3)` (all pours
into the empty vial, which the buggy `executeMove` keeps empty), but the
annotator, replaying with correct pours, fills vial 3 after two moves; the
third pour then has `unitsToPour = 0`, which wipes the replay's vial 2 via
`slice(0, -0)`, and the fourth move is skipped by the empty-source guard:
only three annotated moves come back. -/
theorem enrichMoves_drops_solver_move :
    (bfsLoop false MAX_SEARCH_STATES
        [⟨[["a1", "a2", "a2"], ["b1", "b2", "b2"], ["f1", "f2", "f3"], []], []⟩]
        [GameState.key
          ⟨[["a1", "a2", "a2"], ["b1", "b2", "b2"], ["f1", "f2", "f3"], []], []⟩]).1.map
      GameState.moves = some [⟨0, 3⟩, ⟨1, 3⟩, ⟨2, 3⟩, ⟨2, 3⟩] ∧
    solvePuzzle [["a1", "a2", "a2"], ["b1", "b2", "b2"], ["f1", "f2", "f3"], []] false =
      some [⟨0, 3, "a2", 2⟩, ⟨1, 3, "b2", 2⟩, ⟨2, 3, "f3", 0⟩] ∧
    enrichMoves [⟨0, 3⟩, ⟨1, 3⟩, ⟨2, 3⟩, ⟨2, 3⟩]
        [["a1", "a2", "a2"], ["b1", "b2", "b2"], ["f1", "f2", "f3"], []] =
      [⟨0, 3, "a2", 2⟩, ⟨1, 3, "b2", 2⟩, ⟨2, 3, "f3", 0⟩] ∧
    (3 : Nat) ≠ 4 := by
  decide

end WaterSort

namespace WaterSort

/-- C4.  The claim says a non-null result of `solvePuzzle` is a shortest
solution.  The canonical key is not injective (the spec requires it to be):
a vial holding one unit of the empty-string color and an empty vial both
encode as `""`.  On `[[""], [""], ["","","",""]]` in strict mode the solved
state `[[], [], ["","","",""]]` is reachable by the two valid moves
`(0,1), (1,0)`, but its key equals the initial state's key, so it is pruned
as already visited and the solver returns a three-move sequence instead. -/
theorem solvePuzzle_returns_non_shortest_solution :
    solvePuzzle [[""], [""], ["", "", "", ""]] true =
      some [⟨0, 1, "", 1⟩, ⟨2, 1, "", 2⟩, ⟨2, 0, "", 2⟩] ∧
    (runMoves ⟨[[""], [""], ["", "", "", ""]], []⟩ [⟨0, 1⟩, ⟨1, 0⟩]).map
      (fun st => (st.vials, isSolved st true)) =
      some ([[], [], ["", "", "", ""]], true) ∧
    GameState.key ⟨[[""], [""], ["", "", "", ""]], []⟩ =
      GameState.key ⟨[[], [], ["", "", "", ""]], []⟩ ∧
    (2 : Nat) < 3 := by
  decide

end WaterSort
